import Mathlib

/-!
Verification of the regex playground's core engine (`src/js/regex-engine.js`,
class `RegexEngine`): the match-collection loop (`findMatches`), the capture
group mapping, the substitution pre-processing (`substitute`), the flavor
converters (`convertPCREToJS` etc.) and the pattern explainer (`explain`).

Strings are modelled as `List Char` (JavaScript code-unit sequences).
The host platform's native regular-expression engine is an external
collaborator (spec §1 "Out of scope"); it is modelled abstractly: a compiled
regex is represented by its `exec` behaviour (a function from a start offset
to an optional match) together with the two facts every JavaScript `exec`
satisfies — the returned match starts at or after the search cursor, and it
lies inside the subject.  JavaScript objects whose keys are the numeric group
indices are modelled as association lists in property order.
-/

set_option maxRecDepth 16000
set_option maxHeartbeats 1000000

namespace RegexEngine

/-- One native match: its start offset (`match.index`), its matched text
(`match[0]`) and its capture list (`match[1..]`, `none` for a capture group
that did not participate, mirroring `undefined`). -/
structure NMatch where
  index : Nat
  text : List Char
  caps : List (Option (List Char))
deriving DecidableEq

/-- JavaScript property assignment `obj[k] = v` on an object modelled as an
association list in property-insertion order: update in place if the key
exists, else append. -/
def objSet (k : Nat) (v : Option (List Char)) :
    List (Nat × Option (List Char)) → List (Nat × Option (List Char))
  | [] => [(k, v)]
  | (k', v') :: rest => if k' = k then (k, v) :: rest else (k', v') :: objSet k v rest

/-- Embeds the group-collection loop of `findMatches` (part_002 lines 72–77 and
86–91): `match.groups = {}; for (let i = 1; i < match.length; i++)
match.groups[i] = match[i];` where `match.length = caps.length + 1` and
`match[i] = caps[i-1]`, i.e. the loop writes key `i+1 ↦ caps[i]` for every
`i < caps.length`, including `undefined` (`none`) captures. -/
def buildGroups (caps : List (Option (List Char))) : List (Nat × Option (List Char)) :=
  (List.range caps.length).foldl (fun acc i => objSet (i + 1) ((caps.get? i).getD none) acc) []

/-- A match as pushed into the result collection: the native match plus the
`groups` object that `findMatches` attaches when `match.length > 1`. -/
structure AMatch where
  m : NMatch
  groups : Option (List (Nat × Option (List Char)))
deriving DecidableEq

/-- The per-match enrichment performed in both branches of `findMatches`:
`if (match.length > 1) { match.groups = {...} }`. -/
def annotate (m : NMatch) : AMatch :=
  ⟨m, if 1 < m.caps.length + 1 then some (buildGroups m.caps) else none⟩

/-- An abstract compiled native regex applied to a fixed subject of length
`len`: `exec p` is the native `globalRegex.exec(testString)` invoked with
`lastIndex = p`.  The two properties are those guaranteed by the JavaScript
engine: a returned match never starts before the search cursor, and it lies
within the subject.  (They also force `exec p = none` for `p > len`.) -/
structure ExecM where
  exec : Nat → Option NMatch
  len : Nat
  h_ge : ∀ p m, exec p = some m → p ≤ m.index
  h_bd : ∀ p m, exec p = some m → m.index + m.text.length ≤ len

/-- Embeds the global `while ((match = globalRegex.exec(testString)) !== null)`
loop of `findMatches` (part_002 lines 60–80).  After `exec`, the native
`lastIndex` equals `match.index + match[0].length`; the source's zero-width
guard `if (match.index === globalRegex.lastIndex) globalRegex.lastIndex++`
bumps it by one.  The loop terminates because the cursor strictly increases
and a match never starts past the end of the subject. -/
def findLoop (E : ExecM) (k : Nat) : List NMatch :=
  match h : E.exec k with
  | none => []
  | some m =>
      m :: findLoop E
        (if m.index = m.index + m.text.length
         then m.index + m.text.length + 1
         else m.index + m.text.length)
termination_by E.len + 1 - k
decreasing_by
  have h1 := E.h_ge k m h
  have h2 := E.h_bd k m h
  split <;> omega

/-- Embeds `findMatches(regex, testString, isGlobal)` (part_002 lines 57–97):
global iteration collecting every match, or a single `exec` collecting at
most one, each match enriched with its `groups` object. -/
def findMatches (E : ExecM) (isGlobal : Bool) : List AMatch :=
  if isGlobal then (findLoop E 0).map annotate
  else
    match E.exec 0 with
    | none => []
    | some m => [annotate m]

/-- The native `exec` behaviour of the pattern `c*` (zero or more copies of a
single literal) over subject `subj`: at every cursor position up to and
including the end of the subject it greedily matches the run of `c`
starting there (possibly empty, a zero-width match); past the end it fails. -/
def starExec (c : Char) (subj : List Char) : Nat → Option NMatch :=
  fun p =>
    if p ≤ subj.length then some ⟨p, (subj.drop p).takeWhile (fun x => x = c), []⟩
    else none

/-- The `c*` exec packaged with the native-engine facts. -/
def starE (c : Char) (subj : List Char) : ExecM where
  exec := starExec c subj
  len := subj.length
  h_ge := by
    intro p m h
    unfold starExec at h
    split at h
    · cases h; exact Nat.le_refl _
    · exact Option.noConfusion h
  h_bd := by
    intro p m h
    unfold starExec at h
    split at h
    · cases h
      simp only
      have : ((subj.drop p).takeWhile (fun x => x = c)).length ≤ (subj.drop p).length :=
        (List.takeWhile_prefix _).length_le
      simp [List.length_drop] at this
      omega
    · exact Option.noConfusion h

/-- The backtick character (code unit 96). -/
def btChar : Char := Char.ofNat 96

/-- The single-quote character (code unit 39). -/
def quoteChar : Char := Char.ofNat 39

/-- Embeds `replacement.replace(/\$(\d+)/g, (match, num) => ...)` (part_002
line 105): the native global replace scans left to right; at a `$` followed by
at least one digit it consumes the maximal digit run and emits the callback
result, which is the template-literal string `$` + digits — the match itself;
otherwise it advances one character. -/
def repDollarNum : List Char → List Char
  | [] => []
  | '$' :: rest =>
      if (rest.takeWhile Char.isDigit).isEmpty then '$' :: repDollarNum rest
      else '$' :: (rest.takeWhile Char.isDigit ++ repDollarNum (rest.dropWhile Char.isDigit))
  | c :: rest => c :: repDollarNum rest
termination_by l => l.length
decreasing_by
  · simp
  · have : (rest.dropWhile Char.isDigit).length ≤ rest.length :=
      (List.dropWhile_suffix _).length_le
    simp
    omega
  · simp

/-- Embeds `.replace(/\$\{(\d+)\}/g, (match, num) => ...)` (part_002 line
106): an occurrence `${digits}` is rewritten to the callback result `$` +
digits (the braces are dropped); at a `$` that does not start such an
occurrence the scan advances one character. -/
def repBraceNum : List Char → List Char
  | '$' :: '{' :: rest =>
      if (rest.takeWhile Char.isDigit).isEmpty then '$' :: repBraceNum ('{' :: rest)
      else
        match hdw : rest.dropWhile Char.isDigit with
        | '}' :: rest2 => '$' :: (rest.takeWhile Char.isDigit ++ repBraceNum rest2)
        | _ => '$' :: repBraceNum ('{' :: rest)
  | c :: rest => c :: repBraceNum rest
  | [] => []
termination_by l => l.length
decreasing_by
  · simp
  · have h1 : (rest.dropWhile Char.isDigit).length ≤ rest.length :=
      (List.dropWhile_suffix _).length_le
    have h2 : (rest.dropWhile Char.isDigit).length = rest2.length + 1 := by
      rw [hdw]; simp
    simp
    omega
  · simp
  · simp

/-- Embeds `.replace(/\$&/g, '$&')` (part_002 line 107): each occurrence of
the two characters `$&` is replaced by the replacement-string expansion of
`$&`, which is the matched substring — the two characters `$&` themselves. -/
def repAmp : List Char → List Char
  | '$' :: '&' :: rest => '$' :: '&' :: repAmp rest
  | c :: rest => c :: repAmp rest
  | [] => []

/-- Embeds `.replace(/\$`/g, '$`')` (part_002 line 108).  The second argument
is a replacement *string*, and in a JavaScript replacement string `` $` ``
denotes the portion of the input preceding the match: each occurrence of the
two characters `$`+backtick is replaced by `orig.take pos`, the text before
that occurrence in the string this replace was invoked on.  `pos` tracks the
absolute offset of the scan head in `orig`. -/
def repBeforeAux (orig : List Char) : Nat → List Char → List Char
  | _, [] => []
  | pos, '$' :: c :: rest =>
      if c = btChar then orig.take pos ++ repBeforeAux orig (pos + 2) rest
      else '$' :: repBeforeAux orig (pos + 1) (c :: rest)
  | pos, c :: rest => c :: repBeforeAux orig (pos + 1) rest

/-- The backtick replace applied to a whole template. -/
def repBefore (s : List Char) : List Char := repBeforeAux s 0 s

/-- Embeds `.replace(/\$'/g, "$'")` (part_002 line 109).  In a replacement
string `$'` denotes the portion of the input following the match: each
occurrence of `$'` is replaced by `orig.drop (pos + 2)`, the text after that
occurrence. -/
def repAfterAux (orig : List Char) : Nat → List Char → List Char
  | _, [] => []
  | pos, '$' :: c :: rest =>
      if c = quoteChar then orig.drop (pos + 2) ++ repAfterAux orig (pos + 2) rest
      else '$' :: repAfterAux orig (pos + 1) (c :: rest)
  | pos, c :: rest => c :: repAfterAux orig (pos + 1) rest

/-- The quote replace applied to a whole template. -/
def repAfter (s : List Char) : List Char := repAfterAux s 0 s

/-- Embeds the `processedReplacement` chain of `substitute` (part_002 lines
104–109): the five native replaces applied in source order. -/
def processReplacement (t : List Char) : List Char :=
  repAfter (repBefore (repAmp (repBraceNum (repDollarNum t))))

/-- Decides whether the two-character sequence `a b` occurs in the list. -/
def containsSeq2 (a b : Char) : List Char → Bool
  | x :: y :: rest => if x = a ∧ y = b then true else containsSeq2 a b (y :: rest)
  | _ => false

/-- Numeric value of a digit character. -/
def digitVal (c : Char) : Nat := c.toNat - 48

/-- Capture `n` of a match, the empty string when the group did not
participate (JavaScript substitutes the empty string for `undefined`). -/
def capOrEmpty (m : NMatch) (n : Nat) : List Char :=
  ((m.caps.get? (n - 1)).getD none).getD []

/-- Models `GetSubstitution` of the native `String.prototype.replace` for a
replacement string, as a left-to-right scanner whose `Bool` state records
whether a `$` has just been consumed and awaits interpretation: `$$` → `$`,
`$&` → matched text, `` $` `` → text before the match, `$'` → text after the
match, `$n`/`$nn` → capture when the group number is in range (two digits
preferred, a non-participating group contributing the empty string), literal
text otherwise.  In the digit branches the single scan step on the following
character is unfolded inline (a `$` flips the state, any other character is
emitted) so that the recursion is structural.  (`$<name>` is literal for a
regex without named groups, which is the only case the claims exercise.) -/
def expandReplAux (m : NMatch) (subject : List Char) : Bool → List Char → List Char
  | false, [] => []
  | false, '$' :: rest => expandReplAux m subject true rest
  | false, c :: rest => c :: expandReplAux m subject false rest
  | true, [] => ['$']
  | true, '$' :: rest => '$' :: expandReplAux m subject false rest
  | true, '&' :: rest => m.text ++ expandReplAux m subject false rest
  | true, c :: rest =>
      if c = btChar then subject.take m.index ++ expandReplAux m subject false rest
      else if c = quoteChar then
        subject.drop (m.index + m.text.length) ++ expandReplAux m subject false rest
      else if c.isDigit then
        match rest with
        | c2 :: rest2 =>
            if c2.isDigit ∧ 1 ≤ 10 * digitVal c + digitVal c2 ∧
                10 * digitVal c + digitVal c2 ≤ m.caps.length then
              capOrEmpty m (10 * digitVal c + digitVal c2) ++ expandReplAux m subject false rest2
            else if 1 ≤ digitVal c ∧ digitVal c ≤ m.caps.length then
              capOrEmpty m (digitVal c) ++
                (if c2 = '$' then expandReplAux m subject true rest2
                 else c2 :: expandReplAux m subject false rest2)
            else '$' :: c ::
                (if c2 = '$' then expandReplAux m subject true rest2
                 else c2 :: expandReplAux m subject false rest2)
        | [] =>
            if 1 ≤ digitVal c ∧ digitVal c ≤ m.caps.length then capOrEmpty m (digitVal c)
            else ['$', c]
      else '$' :: c :: expandReplAux m subject false rest

def expandRepl (m : NMatch) (subject : List Char) (l : List Char) : List Char :=
  expandReplAux m subject false l

/-- The native non-global `testString.replace(regex, processed)`: nothing to
replace when there is no match, otherwise the first match is replaced by the
expanded replacement string. -/
def jsReplaceFirst (fm : Option NMatch) (subject processed : List Char) : List Char :=
  match fm with
  | none => subject
  | some m =>
      subject.take m.index ++ expandRepl m subject processed ++
        subject.drop (m.index + m.text.length)

/-- An abstract compiled regex for the Substitution Engine: its first-match
behaviour on a subject. -/
structure CompiledFn where
  firstMatch : List Char → Option NMatch

/-- Embeds `substitute(pattern, flags, testString, replacement)` (part_002
lines 99–115): `none` is the case in which `new RegExp(pattern, flags)`
throws, caught by the `try/catch` that returns the subject unchanged;
otherwise the processed template is handed to the native replace (modelled
here for a non-global flag set: the first match is rewritten). -/
def substitute (compiled : Option CompiledFn) (subject template : List Char) : List Char :=
  match compiled with
  | none => subject
  | some r => jsReplaceFirst (r.firstMatch subject) subject (processReplacement template)

/-- Replaces every (non-overlapping, leftmost-first) occurrence of the two
characters `a b` by the single character `r`: the shape of the three global
replaces in `convertPCREToJS`. -/
def repPair (a b r : Char) : List Char → List Char
  | x :: y :: rest =>
      if x = a ∧ y = b then r :: repPair a b r rest else x :: repPair a b r (y :: rest)
  | l => l

/-- Embeds `convertPCREToJS` (part_002 lines 323–329): `\A` → `^`, `\Z` → `$`,
`\z` → `$`, applied in that order. -/
def convertPCREToJS (p : List Char) : List Char :=
  repPair '\\' 'z' '$' (repPair '\\' 'Z' '$' (repPair '\\' 'A' '^' p))

/-- Embeds `convertPythonToJS` (part_002 lines 331–334): identity. -/
def convertPythonToJS (p : List Char) : List Char := p

/-- Embeds `convertGoToJS` (part_002 lines 336–339): identity. -/
def convertGoToJS (p : List Char) : List Char := p

/-- The effective pattern text `createRegex` hands to `new RegExp` (part_002
lines 29–51): the flavor-specific textual rewrite of the raw pattern. -/
def createRegexPattern (flavor : String) (p : List Char) : List Char :=
  if flavor = "pcre" then convertPCREToJS p
  else if flavor = "python" then convertPythonToJS p
  else if flavor = "golang" then convertGoToJS p
  else p

/-- The pattern text `substitute` hands to `new RegExp` (part_002 line 101):
the raw pattern, exactly as given — `substitute` takes no flavor parameter
and performs no rewriting. -/
def substituteCompiledSource (p : List Char) : List Char := p

/-- JavaScript `pattern.substring(a, b)` for `a ≤ b`: the characters at
offsets `a` (inclusive) to `b` (exclusive). -/
def substring (l : List Char) (a b : Nat) : List Char := (l.drop a).take (b - a)

/-- Helper for `indexOfFrom`: first offset `≥ idx` (in the original list) at
which `c` occurs in the remaining suffix. -/
def indexOfAux (c : Char) : List Char → Nat → Option Nat
  | [], _ => none
  | x :: rest, idx => if x = c then some idx else indexOfAux c rest (idx + 1)

/-- JavaScript `pattern.indexOf(c, start)`: the least offset `≥ start` at
which `c` occurs, `none` standing for `-1`. -/
def indexOfFrom (p : List Char) (c : Char) (start : Nat) : Option Nat :=
  indexOfAux c (p.drop start) start

/-- Embeds the nesting-depth loop of the `'('` case of `explain` (part_002
lines 182–188): starting just after the opening parenthesis with depth 1,
step over each character, incrementing the depth at an unescaped `(`,
decrementing at an unescaped `)` (`prev` is the character before the cursor),
and stop when the depth returns to 0 or the pattern ends; returns the final
cursor `j`. -/
def groupScanAux : Nat → Nat → Char → List Char → Nat
  | j, _, _, [] => j
  | j, depth, prev, cj :: rest =>
      if depth = 0 then j
      else
        groupScanAux (j + 1)
          (if cj = ')' ∧ prev ≠ '\\' then
            (if cj = '(' ∧ prev ≠ '\\' then depth + 1 else depth) - 1
           else (if cj = '(' ∧ prev ≠ '\\' then depth + 1 else depth))
          cj rest

/-- The cursor position after scanning the group that starts at offset `i`
(where `p.get? i = some '('`). -/
def groupScanEnd (p : List Char) (i : Nat) : Nat :=
  groupScanAux (i + 1) 1 (p.getD i ' ') (p.drop (i + 1))

/-- Embeds `getEscapeExplanation` (part_002 lines 228–248). -/
def getEscapeExplanation (c : Char) : String :=
  if c = 'd' then "Matches any digit character [0-9]"
  else if c = 'D' then "Matches any non-digit character"
  else if c = 'w' then "Matches any word character [a-zA-Z0-9_]"
  else if c = 'W' then "Matches any non-word character"
  else if c = 's' then "Matches any whitespace character"
  else if c = 'S' then "Matches any non-whitespace character"
  else if c = 'b' then "Matches a word boundary"
  else if c = 'B' then "Matches a non-word boundary"
  else if c = 'n' then "Matches a newline character"
  else if c = 'r' then "Matches a carriage return"
  else if c = 't' then "Matches a tab character"
  else if c = 'v' then "Matches a vertical tab character"
  else if c = 'f' then "Matches a form feed character"
  else if c = '0' then "Matches a null character"
  else if c = '\\' then "Matches a backslash literally"
  else "Escapes the character \"" ++ c.toString ++ "\""

/-- Embeds `getCharClassExplanation` (part_002 lines 250–256). -/
def getCharClassExplanation (cc : List Char) : String :=
  if ['[', '^'].isPrefixOf cc then
    "Matches any character NOT in the set " ++ String.mk (substring cc 2 (cc.length - 1))
  else
    "Matches any character in the set " ++ String.mk (substring cc 1 (cc.length - 1))

/-- Embeds `getGroupExplanation` (part_002 lines 258–276); prefixes are
checked in source order.  In the named-group case the name is
`group.substring(3, group.indexOf('>'))`; when no `>` exists JavaScript's
`substring(3, -1)` clamps and swaps its arguments, yielding the first three
characters. -/
def getGroupExplanation (g : List Char) : String :=
  if ['(', '?', ':'].isPrefixOf g then "Non-capturing group"
  else if ['(', '?', '='].isPrefixOf g then "Positive lookahead assertion"
  else if ['(', '?', '!'].isPrefixOf g then "Negative lookahead assertion"
  else if ['(', '?', '<', '='].isPrefixOf g then "Positive lookbehind assertion"
  else if ['(', '?', '<', '!'].isPrefixOf g then "Negative lookbehind assertion"
  else if ['(', '?', '<'].isPrefixOf g then
    match indexOfFrom g '>' 0 with
    | some e => "Named capturing group \"" ++ String.mk (substring g 3 e) ++ "\""
    | none => "Named capturing group \"" ++ String.mk (substring g 0 3) ++ "\""
  else "Capturing group"

/-- Embeds `getQuantifierExplanation` (part_002 lines 278–291): the brace
content is split at the first comma; an empty max (as in `{2,}`) is falsy. -/
def getQuantifierExplanation (q : List Char) : String :=
  if (substring q 1 (q.length - 1)).contains ',' then
    if ((substring q 1 (q.length - 1)).splitOn ',').getD 1 [] ≠ [] then
      "Matches previous token between " ++
        String.mk (((substring q 1 (q.length - 1)).splitOn ',').getD 0 []) ++ " and " ++
        String.mk (((substring q 1 (q.length - 1)).splitOn ',').getD 1 []) ++ " times"
    else
      "Matches previous token " ++
        String.mk (((substring q 1 (q.length - 1)).splitOn ',').getD 0 []) ++ " or more times"
  else "Matches previous token exactly " ++ String.mk (substring q 1 (q.length - 1)) ++ " times"

/-- Embeds `getFlagsExplanation` (part_002 lines 293–304). -/
def getFlagsExplanation (flags : List Char) : String :=
  String.intercalate ", "
    ((if flags.contains 'g' then ["global (find all matches)"] else []) ++
     (if flags.contains 'i' then ["case insensitive"] else []) ++
     (if flags.contains 'm' then ["multiline (^ and $ match line breaks)"] else []) ++
     (if flags.contains 's' then ["single line (. matches newlines)"] else []) ++
     (if flags.contains 'u' then ["unicode"] else []) ++
     (if flags.contains 'y' then ["sticky"] else []))

/-- A found index is at least the search start and within the list. -/
theorem indexOfAux_some_bounds {c : Char} :
    ∀ (l : List Char) (idx e : Nat), indexOfAux c l idx = some e → idx ≤ e ∧ e < idx + l.length := by
  intro l
  induction l with
  | nil => intro idx e h; exact Option.noConfusion h
  | cons x rest ih =>
    intro idx e h
    unfold indexOfAux at h
    split at h
    · cases h; simp
    · have := ih (idx + 1) e h
      simp only [List.length_cons]
      omega

/-- `indexOf(c, start)` returns an offset between `start` and the end. -/
theorem indexOfFrom_some_bounds {p : List Char} {c : Char} {s e : Nat}
    (h : indexOfFrom p c s = some e) : s ≤ e ∧ e < p.length := by
  unfold indexOfFrom at h
  have := indexOfAux_some_bounds (p.drop s) s e h
  have hd : (p.drop s).length = p.length - s := List.length_drop s p
  omega

/-- The group scan never moves the cursor backwards. -/
theorem groupScanAux_ge :
    ∀ (l : List Char) (j d : Nat) (pr : Char), j ≤ groupScanAux j d pr l := by
  intro l
  induction l with
  | nil => intro j d pr; simp [groupScanAux]
  | cons cj rest ih =>
    intro j d pr
    unfold groupScanAux
    split
    · exact Nat.le_refl _
    · exact Nat.le_trans (Nat.le_succ j) (ih (j + 1) _ cj)

/-- The end of a group lies strictly beyond its opening parenthesis. -/
theorem groupScanEnd_ge (p : List Char) (i : Nat) : i + 1 ≤ groupScanEnd p i :=
  groupScanAux_ge _ _ _ _

/-- Embeds the single left-to-right scan of `explain` (part_002 lines
117–214), producing the `(token, description)` pairs in pattern order.  Each
branch advances the cursor by at least one position, which is the measure of
the loop's termination. -/
def explainScan (p : List Char) (i : Nat) : List (List Char × String) :=
  match hc : p.get? i with
  | none => []
  | some c =>
    if c = '^' then
      (['^'], "Asserts position at start of string or line") :: explainScan p (i + 1)
    else if c = '$' then
      (['$'], "Asserts position at end of string or line") :: explainScan p (i + 1)
    else if c = '.' then
      (['.'], "Matches any character (except newline unless s flag is set)") ::
        explainScan p (i + 1)
    else if c = '*' then
      (['*'], "Matches previous token 0 or more times (greedy)") :: explainScan p (i + 1)
    else if c = '+' then
      (['+'], "Matches previous token 1 or more times (greedy)") :: explainScan p (i + 1)
    else if c = '?' then
      (if 0 < i ∧ (p.get? (i - 1) = some '*' ∨ p.get? (i - 1) = some '+' ∨
          p.get? (i - 1) = some '?') then
        (['?'], "Makes previous quantifier lazy (non-greedy)")
       else (['?'], "Matches previous token 0 or 1 time")) :: explainScan p (i + 1)
    else if c = '\\' then
      match p.get? (i + 1) with
      | some nc => (['\\', nc], getEscapeExplanation nc) :: explainScan p (i + 2)
      | none => explainScan p (i + 1)
    else if c = '[' then
      match hb : indexOfFrom p ']' i with
      | some e =>
          (substring p i (e + 1), getCharClassExplanation (substring p i (e + 1))) ::
            explainScan p (e + 1)
      | none => explainScan p (i + 1)
    else if c = '(' then
      (substring p i (groupScanEnd p i),
        getGroupExplanation (substring p i (groupScanEnd p i))) ::
        explainScan p (groupScanEnd p i)
    else if c = '|' then
      (['|'], "Alternation (OR operator)") :: explainScan p (i + 1)
    else if c = '{' then
      match hb : indexOfFrom p '}' i with
      | some e =>
          (substring p i (e + 1), getQuantifierExplanation (substring p i (e + 1))) ::
            explainScan p (e + 1)
      | none => explainScan p (i + 1)
    else
      ([c], "Matches the character \"" ++ c.toString ++ "\" literally") :: explainScan p (i + 1)
termination_by p.length - i
decreasing_by
  all_goals
    have hi : i < p.length := by
      by_contra hcon
      rw [List.get?_eq_none.mpr (Nat.le_of_not_lt hcon)] at hc
      exact Option.noConfusion hc
  all_goals first
    | omega
    | (have hx := indexOfFrom_some_bounds hb; omega)
    | (have hx := groupScanEnd_ge p i; omega)

/-- Embeds `explain(pattern, flags)` up to the final HTML formatting
(`formatExplanation` only renders the list into DOM markup): the scanned
token sequence, plus the trailing synthetic flags token when the flag string
is non-empty. -/
def explain (p : List Char) (flags : List Char) : List (List Char × String) :=
  explainScan p 0 ++
    (if flags = [] then []
     else [("Flags: ".toList ++ flags, getFlagsExplanation flags)])

/-- Setting a key that is absent appends the pair at the end. -/
theorem objSet_fresh (k : Nat) (v : Option (List Char)) :
    ∀ l, (∀ p ∈ l, p.1 ≠ k) → objSet k v l = l ++ [(k, v)] := by
  intro l
  induction l with
  | nil => intro; rfl
  | cons hd rest ih =>
    intro hfresh
    unfold objSet
    rw [if_neg (hfresh hd (List.mem_cons_self hd rest))]
    simp only [List.cons_append, List.cons.injEq, true_and]
    exact ih fun p hp => hfresh p (List.mem_cons_of_mem hd hp)

/-- The `groups` object is the ordered list of pairs `(i+1, caps[i])`, one
entry for every capture group, including the non-participating ones. -/
theorem buildGroups_eq (caps : List (Option (List Char))) :
    buildGroups caps =
      (List.range caps.length).map (fun i => (i + 1, (caps.get? i).getD none)) := by
  unfold buildGroups
  generalize caps.length = n
  induction n with
  | zero => rfl
  | succ n ih =>
    rw [List.range_succ, List.foldl_append, List.map_append, ih]
    simp only [List.foldl_cons, List.foldl_nil, List.map_cons, List.map_nil]
    apply objSet_fresh
    intro q hq
    rw [List.mem_map] at hq
    obtain ⟨j, hj, rfl⟩ := hq
    rw [List.mem_range] at hj
    simp only
    omega

/-- The `$N` pre-processing replace is the identity. -/
theorem repDollarNum_id : ∀ l, repDollarNum l = l := by
  intro l
  induction l using repDollarNum.induct with
  | case1 => simp [repDollarNum]
  | case2 rest h ih => rw [repDollarNum]; simp [h, ih]
  | case3 rest h ih =>
    rw [repDollarNum]
    simp only [h, Bool.false_eq_true, if_false, ih, List.takeWhile_append_dropWhile]
  | case4 c rest hne ih => rw [repDollarNum]; simp [ih]; exact hne

/-- The `$&` pre-processing replace is the identity. -/
theorem repAmp_id : ∀ l, repAmp l = l := by
  intro l
  induction l using repAmp.induct with
  | case1 rest ih => rw [repAmp]; simp [ih]
  | case2 c rest hne ih => rw [repAmp]; simp [ih]; exact hne
  | case3 => simp [repAmp]

/-- The processed template is the `${N}` rewrite followed by the backtick and
quote substitutions; the `$N` and `$&` stages drop out as identities. -/
theorem processReplacement_eq (t : List Char) :
    processReplacement t = repAfter (repBefore (repBraceNum t)) := by
  unfold processReplacement
  rw [repDollarNum_id, repAmp_id]

/-- Splitting a list at `i` and again at `n` and reassembling gives it back. -/
theorem take_mid_drop (s : List Char) (i n : Nat) :
    s.take i ++ ((s.drop i).take n ++ s.drop (i + n)) = s := by
  conv_rhs => rw [← List.take_append_drop i s]
  congr 1
  conv_rhs => rw [← List.take_append_drop n (s.drop i)]
  congr 1
  rw [List.drop_drop, Nat.add_comm]

/-- The pair replace never lengthens the list. -/
theorem repPair_length_le (a b r : Char) : ∀ l, (repPair a b r l).length ≤ l.length := by
  intro l
  induction l using repPair.induct a b r with
  | case1 x y rest hxy ih => rw [repPair, if_pos hxy]; simp; omega
  | case2 x y rest hxy ih => rw [repPair, if_neg hxy]; simp at ih ⊢; omega
  | case3 l hcc => rw [repPair]; exact hcc

/-- If the two-character sequence occurs, the pair replace strictly shortens
the list. -/
theorem repPair_length_lt (a b r : Char) :
    ∀ l, containsSeq2 a b l = true → (repPair a b r l).length < l.length := by
  intro l
  induction l using repPair.induct a b r with
  | case1 x y rest hxy ih =>
    intro hc
    rw [repPair, if_pos hxy]
    have := repPair_length_le a b r rest
    simp
    omega
  | case2 x y rest hxy ih =>
    intro hc
    rw [containsSeq2, if_neg hxy] at hc
    rw [repPair, if_neg hxy]
    have := ih hc
    simp at this ⊢
    omega
  | case3 l hcc =>
    intro hc
    rcases l with _ | ⟨x, _ | ⟨y, rest⟩⟩
    · simp [containsSeq2] at hc
    · simp [containsSeq2] at hc
    · exact ((hcc x y rest rfl).elim)

/-- If the two-character sequence does not occur, the pair replace is the
identity. -/
theorem repPair_of_not_contains (a b r : Char) :
    ∀ l, containsSeq2 a b l = false → repPair a b r l = l := by
  intro l
  induction l using repPair.induct a b r with
  | case1 x y rest hxy ih =>
    intro hc
    rw [containsSeq2, if_pos hxy] at hc
    exact absurd hc (by simp)
  | case2 x y rest hxy ih =>
    intro hc
    rw [containsSeq2, if_neg hxy] at hc
    rw [repPair, if_neg hxy, ih hc]
  | case3 l hcc =>
    intro hc
    rw [repPair]
    exact hcc

/-- The global-iteration loop visits at most `len + 1 - k` cursor positions,
so it terminates with a finite collection of that size at most. -/
theorem findLoop_length_le (E : ExecM) : ∀ k, (findLoop E k).length ≤ E.len + 1 - k := by
  intro k
  induction k using findLoop.induct E with
  | case1 k h => rw [findLoop, h]; simp
  | case2 k m h ih =>
    rw [findLoop, h]
    have h1 := E.h_ge k m h
    have h2 := E.h_bd k m h
    simp only [dite_eq_ite] at ih
    simp only [List.length_cons]
    by_cases hz : m.index = m.index + m.text.length
    · rw [if_pos hz] at ih ⊢
      omega
    · rw [if_neg hz] at ih ⊢
      omega

/-- Every match collected from cursor `k` onwards starts at or after `k`. -/
theorem findLoop_index_ge (E : ExecM) :
    ∀ k, ∀ x ∈ findLoop E k, k ≤ x.index := by
  intro k
  induction k using findLoop.induct E with
  | case1 k h =>
    rw [findLoop, h]
    intro x hx
    exact absurd hx (List.not_mem_nil x)
  | case2 k m h ih =>
    rw [findLoop, h]
    intro x hx
    have h1 := E.h_ge k m h
    simp only [dite_eq_ite] at ih
    rcases List.mem_cons.mp hx with rfl | hx'
    · exact h1
    · have := ih x hx'
      by_cases hz : m.index = m.index + m.text.length
      · rw [if_pos hz] at this; omega
      · rw [if_neg hz] at this; omega

/-- The start offsets of the collected matches are strictly increasing along
the collection. -/
theorem findLoop_pairwise (E : ExecM) :
    ∀ k, List.Pairwise (· < ·) ((findLoop E k).map (fun x => x.index)) := by
  intro k
  induction k using findLoop.induct E with
  | case1 k h => rw [findLoop, h]; simp
  | case2 k m h ih =>
    rw [findLoop, h]
    have h1 := E.h_ge k m h
    simp only [dite_eq_ite] at ih
    simp only [List.map_cons, List.pairwise_cons]
    constructor
    · intro a ha
      rw [List.mem_map] at ha
      obtain ⟨x, hx, rfl⟩ := ha
      by_cases hz : m.index = m.index + m.text.length
      · rw [if_pos hz] at hx
        have := findLoop_index_ge E _ x hx
        omega
      · rw [if_neg hz] at hx
        have := findLoop_index_ge E _ x hx
        omega
    · by_cases hz : m.index = m.index + m.text.length
      · rw [if_pos hz] at ih ⊢; exact ih
      · rw [if_neg hz] at ih ⊢; exact ih

/-- The token scan starting at cursor `i` emits at most one token per
remaining pattern character. -/
theorem explainScan_length_le (p : List Char) :
    ∀ i, (explainScan p i).length ≤ p.length - i := by
  have hlt : ∀ (i : Nat) (c : Char), p.get? i = some c → i < p.length := by
    intro i c hc
    by_contra hcon
    rw [List.get?_eq_none.mpr (Nat.le_of_not_lt hcon)] at hc
    exact Option.noConfusion hc
  intro i
  induction i using explainScan.induct p with
  | case1 x h => rw [explainScan, h]; simp
  | case2 x hc ih =>
    have := hlt x _ hc
    rw [explainScan, hc]
    simp +decide only [if_true, if_false, List.length_cons]
    omega
  | case3 x hc _ ih =>
    have := hlt x _ hc
    rw [explainScan, hc]
    simp +decide only [if_true, if_false, List.length_cons]
    omega
  | case4 x hc _ _ ih =>
    have := hlt x _ hc
    rw [explainScan, hc]
    simp +decide only [if_true, if_false, List.length_cons]
    omega
  | case5 x hc _ _ _ ih =>
    have := hlt x _ hc
    rw [explainScan, hc]
    simp +decide only [if_true, if_false, List.length_cons]
    omega
  | case6 x hc _ _ _ _ ih =>
    have := hlt x _ hc
    rw [explainScan, hc]
    simp +decide only [if_true, if_false, List.length_cons]
    omega
  | case7 x hc _ _ _ _ _ ih =>
    have := hlt x _ hc
    rw [explainScan, hc]
    simp +decide only [if_true, if_false, List.length_cons]
    omega
  | case8 x nc hnext hc _ _ _ _ _ _ ih =>
    have := hlt x _ hc
    rw [explainScan, hc]
    simp +decide only [if_true, if_false, hnext, List.length_cons]
    omega
  | case9 x hnext hc _ _ _ _ _ _ ih =>
    have := hlt x _ hc
    rw [explainScan, hc]
    simp +decide only [if_true, if_false, hnext]
    omega
  | case10 x e hb hc _ _ _ _ _ _ _ ih =>
    have := hlt x _ hc
    have hbb := indexOfFrom_some_bounds hb
    rw [explainScan, hc]
    simp +decide only [if_true, if_false]
    split
    · rename_i e2 hb2
      rw [hb] at hb2
      injection hb2 with he
      subst he
      simp only [List.length_cons]
      omega
    · rename_i hb2
      rw [hb] at hb2
      exact Option.noConfusion hb2
  | case11 x hb hc _ _ _ _ _ _ _ ih =>
    have := hlt x _ hc
    rw [explainScan, hc]
    simp +decide only [if_true, if_false]
    split
    · rename_i e2 hb2
      rw [hb] at hb2
      exact Option.noConfusion hb2
    · omega
  | case12 x hc _ _ _ _ _ _ _ _ ih =>
    have := hlt x _ hc
    have hg := groupScanEnd_ge p x
    rw [explainScan, hc]
    simp +decide only [if_true, if_false, List.length_cons]
    omega
  | case13 x hc _ _ _ _ _ _ _ _ _ ih =>
    have := hlt x _ hc
    rw [explainScan, hc]
    simp +decide only [if_true, if_false, List.length_cons]
    omega
  | case14 x e hb hc _ _ _ _ _ _ _ _ _ _ ih =>
    have := hlt x _ hc
    have hbb := indexOfFrom_some_bounds hb
    rw [explainScan, hc]
    simp +decide only [if_true, if_false]
    split
    · rename_i e2 hb2
      rw [hb] at hb2
      injection hb2 with he
      subst he
      simp only [List.length_cons]
      omega
    · rename_i hb2
      rw [hb] at hb2
      exact Option.noConfusion hb2
  | case15 x hb hc _ _ _ _ _ _ _ _ _ _ ih =>
    have := hlt x _ hc
    rw [explainScan, hc]
    simp +decide only [if_true, if_false]
    split
    · rename_i e2 hb2
      rw [hb] at hb2
      exact Option.noConfusion hb2
    · omega
  | case16 x c hc h1 h2 h3 h4 h5 h6 h7 h8 h9 h10 h11 ih =>
    have := hlt x _ hc
    rw [explainScan, hc]
    simp only [if_neg h1, if_neg h2, if_neg h3, if_neg h4, if_neg h5, if_neg h6, if_neg h7,
      if_neg h8, if_neg h9, if_neg h10, if_neg h11, List.length_cons]
    omega

/-- The pattern of the spec's named-group example: `(?<year>\d{4})`. -/
def yearPattern : List Char := "(?<year>\\d{4})".toList

unseal repDollarNum repBraceNum in
/-- The template pre-processing maps `$&` to itself. -/
theorem processReplacement_dollarAmp : processReplacement ['$', '&'] = ['$', '&'] := by decide

/-- C1, counterexample: for the two-group capture list of `(a)(b)?` matched
against `"a"` — group 1 = `"a"`, group 2 non-participating (`none`) — the
`groups` object built by `findMatches` still contains key 2 (with the
undefined value), so the mapping does not omit the index of the
non-participating group as the claim states. -/
theorem c1_counterexample :
    ((buildGroups [some ['a'], none]).map Prod.fst).contains 2 = true ∧
      [some (['a'] : List Char), none].get? 1 = some none := by decide

/-- C1, amended: for every match with more than one capture group, the
attached mapping has exactly the keys `1..n` in ascending order; key `i+1`
carries the captured substring of group `i+1` when it participated and the
undefined value (`none`) when it did not — distinguished from an
empty-string capture (`some []`), which is why `(i+1, some v)` is never an
entry for a non-participating group. -/
theorem c1_groups_entries (caps : List (Option (List Char))) (h : 1 < caps.length) :
    buildGroups caps =
        (List.range caps.length).map (fun i => (i + 1, (caps.get? i).getD none)) ∧
      (∀ i, i < caps.length → caps.get? i = some none →
        ((i + 1, (none : Option (List Char))) ∈ buildGroups caps ∧
          ∀ v : List Char, (i + 1, some v) ∉ buildGroups caps)) := by
  refine ⟨buildGroups_eq caps, ?_⟩
  intro i hi hcaps
  constructor
  · rw [buildGroups_eq, List.mem_map]
    exact ⟨i, List.mem_range.mpr hi, by rw [hcaps]; rfl⟩
  · intro v hv
    rw [buildGroups_eq, List.mem_map] at hv
    obtain ⟨j, hj, hjeq⟩ := hv
    have hfst := congrArg Prod.fst hjeq
    simp only at hfst
    have hji : j = i := by omega
    subst hji
    rw [hcaps] at hjeq
    have hsnd := congrArg Prod.snd hjeq
    simp only [Option.getD_some] at hsnd
    exact Option.noConfusion hsnd

/-- C1, witness: the amended statement applied to the concrete two-group
capture list `[some "a", none]`. -/
theorem c1_groups_entries_witness :
    1 < ([some (['a'] : List Char), none]).length ∧
      buildGroups [some ['a'], none] =
        (List.range 2).map (fun i => (i + 1, ([some (['a'] : List Char), none].get? i).getD none)) :=
  ⟨by decide, (c1_groups_entries [some ['a'], none] (by decide)).1⟩

unseal explainScan in
/-- C2, counterexample: `explain("(?<year>\\d{4})", "")` contains no token
for `\d` (neither by token text nor by the digit-class description) and no
token for `{4}`: the `'('` branch consumes the entire group, body included,
as a single token, so the claimed `\d` and `{4}` tokens do not exist. -/
theorem c2_counterexample :
    ¬ ((∃ t ∈ explain yearPattern [], t.1 = ['\\', 'd'] ∨
          t.2 = "Matches any digit character [0-9]") ∨
       (∃ t ∈ explain yearPattern [], t.1 = ['{', '4', '}'] ∨
          t.2 = "Matches previous token exactly 4 times")) := by decide

unseal explainScan in
/-- C2, amended: `explain("(?<year>\\d{4})", "")` returns exactly one token —
the whole pattern, described as the named capturing group `"year"`; a token
naming the group is present, but the group body is consumed whole, so no
separate `\d` or `{4}` tokens are produced. -/
theorem c2_explain_named_group :
    explain yearPattern [] = [(yearPattern, "Named capturing group \"year\"")] := by decide

unseal repDollarNum repBraceNum in
/-- C3, counterexample: the pre-processing rewrites the template `${1}` to
`$1`, so the processed template is not the original. -/
theorem c3_counterexample :
    processReplacement ['$', '{', '1', '}'] = ['$', '1'] ∧
      processReplacement ['$', '{', '1', '}'] ≠ ['$', '{', '1', '}'] := by decide

/-- C3, amended: the `$N` and `$&` passes re-emit every occurrence unchanged
(they are identities on the whole template), and the remaining processing is
the `${N}` → `$N` rewrite followed by the backtick and quote passes — which,
because they use native replacement strings, substitute the text preceding
each `` $` `` and following each `$'` rather than re-emitting those
sequences. -/
theorem c3_preprocessing (t : List Char) :
    repDollarNum t = t ∧ repAmp t = t ∧
      processReplacement t = repAfter (repBefore (repBraceNum t)) :=
  ⟨repDollarNum_id t, repAmp_id t, processReplacement_eq t⟩

unseal findLoop in
/-- C4, counterexample: `a*` with the global flag against `"bbb"` does not
return 3 matches. -/
theorem c4_counterexample :
    (findMatches (starE 'a' ['b', 'b', 'b']) true).length ≠ 3 := by decide

unseal findLoop in
/-- C4, amended: `a*` with the global flag against `"bbb"` terminates and
returns exactly 4 matches (a zero-width match before each `b` and one at the
end of the subject); `x*` with flags `g` against `"ab"` terminates and
returns a finite collection of 3 matches. -/
theorem c4_star_matches :
    (findMatches (starE 'a' ['b', 'b', 'b']) true).length = 4 ∧
      (findMatches (starE 'x' ['a', 'b']) true).length = 3 := by decide

/-- C5: whenever compiling the pattern/flags combination fails (the
`new RegExp` constructor throws, modelled by `none`), `substitute` returns
the original subject unmodified for every subject and template, and raises
nothing (it is a total function). -/
theorem c5_substitute_fail_soft (subject template : List Char) :
    substitute none subject template = subject := rfl

/-- C6: for every compiled pattern (any exec behaviour satisfying the native
engine's contract) and every finite subject, the global iteration of
`findMatches` terminates with a finite match collection of at most
`len + 1` matches — the zero-width guard forces the cursor forward one code
unit, so the cursor strictly increases and the loop cannot run forever. -/
theorem c6_global_termination (E : ExecM) :
    (findMatches E true).length ≤ E.len + 1 := by
  have h := findLoop_length_le E 0
  simp only [findMatches, if_true, List.length_map]
  omega

/-- C6, witness: the bound applied to the `a*` exec over `"bbb"`. -/
theorem c6_global_termination_witness :
    (findMatches (starE 'a' ['b', 'b', 'b']) true).length ≤
      (starE 'a' ['b', 'b', 'b']).len + 1 :=
  c6_global_termination (starE 'a' ['b', 'b', 'b'])

/-- C7: for every compiled pattern and subject, the start offsets of the
matches returned by the global branch of `findMatches` are pairwise strictly
increasing in collection order — hence consecutive offsets strictly increase,
no match occurrence is reported twice, and the collection is ordered by
start offset ascending. -/
theorem c7_matches_increasing (E : ExecM) :
    List.Pairwise (· < ·) ((findMatches E true).map fun a => a.m.index) ∧
      List.Chain' (· < ·) ((findMatches E true).map fun a => a.m.index) ∧
      ((findMatches E true).map fun a => a.m.index).Nodup := by
  have hmap : (findMatches E true).map (fun a => a.m.index) =
      (findLoop E 0).map (fun x => x.index) := by
    simp only [findMatches, if_true, List.map_map]
    rfl
  have hp : List.Pairwise (· < ·) ((findMatches E true).map fun a => a.m.index) := by
    rw [hmap]
    exact findLoop_pairwise E 0
  exact ⟨hp, hp.chain', hp.imp Nat.ne_of_lt⟩

/-- C7, witness: the ordering applied to the `x*` exec over `"ab"`. -/
theorem c7_matches_increasing_witness :
    List.Pairwise (· < ·) ((findMatches (starE 'x' ['a', 'b']) true).map fun a => a.m.index) ∧
      List.Chain' (· < ·) ((findMatches (starE 'x' ['a', 'b']) true).map fun a => a.m.index) ∧
      ((findMatches (starE 'x' ['a', 'b']) true).map fun a => a.m.index).Nodup :=
  c7_matches_increasing (starE 'x' ['a', 'b'])

/-- C8: for every compiling pattern (abstract compiled first-match behaviour,
constrained only by the native fact that the matched text actually occurs at
the match offset) and every subject, substituting with template `$&` under a
non-global flag set returns the subject unchanged: trivially when nothing
matches, and because the first match is replaced by itself otherwise. -/
theorem c8_substitute_whole_match (r : CompiledFn) (subject : List Char)
    (hwf : ∀ m, r.firstMatch subject = some m →
      (subject.drop m.index).take m.text.length = m.text) :
    substitute (some r) subject ['$', '&'] = subject := by
  show jsReplaceFirst (r.firstMatch subject) subject (processReplacement ['$', '&']) = subject
  rw [processReplacement_dollarAmp]
  cases hm : r.firstMatch subject with
  | none => rfl
  | some m =>
    have hx := hwf m hm
    show subject.take m.index ++ expandRepl m subject ['$', '&'] ++
        subject.drop (m.index + m.text.length) = subject
    have hexp : expandRepl m subject ['$', '&'] = m.text := by
      simp [expandRepl, expandReplAux]
    rw [hexp]
    set n := m.text.length with hn
    rw [← hx, List.append_assoc]
    exact take_mid_drop subject m.index n

/-- The concrete first match used by the C8 witness: offset 1, text `"b"`. -/
def w8match : NMatch := ⟨1, ['b'], []⟩

/-- A compiled regex whose first match on every subject is `w8match`. -/
def w8compiled : CompiledFn := ⟨fun _ => some w8match⟩

/-- C8, witness: replacing the first match of a concrete compiled pattern in
`"abc"` by `$&` leaves `"abc"` unchanged. -/
theorem c8_substitute_whole_match_witness :
    substitute (some w8compiled) ['a', 'b', 'c'] ['$', '&'] = ['a', 'b', 'c'] :=
  c8_substitute_whole_match w8compiled ['a', 'b', 'c'] (by
    intro m h
    have h2 : some w8match = some m := h
    injection h2 with h3
    subst h3
    decide)

/-- C9: `explain` is a total function of the pattern and flag strings — it is
defined for every input (the scan's cursor strictly advances in every branch,
including the dangling-backslash, unterminated-class, unterminated-brace and
unterminated-group branches, which is the termination measure of
`explainScan`), it cannot throw, and it returns at most one token per pattern
character plus the single flags token. -/
theorem c9_explain_total (p flags : List Char) :
    (explain p flags).length ≤ p.length + 1 := by
  unfold explain
  rw [List.length_append]
  have h1 := explainScan_length_le p 0
  by_cases hf : flags = []
  · rw [if_pos hf]
    simp only [List.length_nil]
    omega
  · rw [if_neg hf]
    simp only [List.length_cons, List.length_nil]
    omega

/-- C10: `substitute` compiles the raw pattern text exactly as given,
independent of any flavor, while `execute`'s `createRegex` applies the PCRE
rewrite; hence for the `pcre` flavor and any pattern containing `\A`, `\Z` or
`\z`, the Substitution Engine compiles a different effective pattern than the
Match Engine (the rewrite strictly shortens the pattern). -/
theorem c10_substitute_no_flavor (p : List Char) :
    substituteCompiledSource p = p ∧
      ((containsSeq2 '\\' 'A' p || containsSeq2 '\\' 'Z' p ||
          containsSeq2 '\\' 'z' p) = true →
        createRegexPattern "pcre" p ≠ substituteCompiledSource p) := by
  refine ⟨rfl, ?_⟩
  intro hc heq
  have hlen : (convertPCREToJS p).length < p.length := by
    rw [Bool.or_eq_true, Bool.or_eq_true] at hc
    unfold convertPCREToJS
    by_cases hA : containsSeq2 '\\' 'A' p = true
    · have l1 := repPair_length_lt '\\' 'A' '^' p hA
      have l2 := repPair_length_le '\\' 'Z' '$' (repPair '\\' 'A' '^' p)
      have l3 := repPair_length_le '\\' 'z' '$' (repPair '\\' 'Z' '$' (repPair '\\' 'A' '^' p))
      omega
    · rw [repPair_of_not_contains '\\' 'A' '^' p (Bool.not_eq_true _ ▸ hA)]
      by_cases hZ : containsSeq2 '\\' 'Z' p = true
      · have l2 := repPair_length_lt '\\' 'Z' '$' p hZ
        have l3 := repPair_length_le '\\' 'z' '$' (repPair '\\' 'Z' '$' p)
        omega
      · rw [repPair_of_not_contains '\\' 'Z' '$' p (Bool.not_eq_true _ ▸ hZ)]
        have hz : containsSeq2 '\\' 'z' p = true := by
          rcases hc with (h | h) | h
          · exact absurd h hA
          · exact absurd h hZ
          · exact h
        exact repPair_length_lt '\\' 'z' '$' p hz
  have hpc : createRegexPattern "pcre" p = convertPCREToJS p := rfl
  rw [hpc] at heq
  rw [show substituteCompiledSource p = p from rfl] at heq
  rw [heq] at hlen
  exact Nat.lt_irrefl _ hlen

/-- C10, witness: for the pattern `\A` itself, the two engines compile
different effective patterns. -/
theorem c10_substitute_no_flavor_witness :
    (containsSeq2 '\\' 'A' ['\\', 'A'] || containsSeq2 '\\' 'Z' ['\\', 'A'] ||
        containsSeq2 '\\' 'z' ['\\', 'A']) = true ∧
      createRegexPattern "pcre" ['\\', 'A'] ≠ substituteCompiledSource ['\\', 'A'] :=
  ⟨by decide, (c10_substitute_no_flavor ['\\', 'A']).2 (by decide)⟩

end RegexEngine
